import Mathlib

/-!
# Verification of the festlist artist-extraction core

Shallow embedding of the artist-extraction reconciliation engine and the
catalog fuzzy matcher of the `festlist` repository
(`backend/app/services/artist_extraction_service.py`,
`backend/app/services/gemini_service.py`,
`backend/app/services/spotify_service.py`).

Strings are modelled as `List Char` (ASCII view of Python `str`); Python
floats are modelled as rationals `ℚ`; Python regular-expression matching is
modelled by a small backtracking engine covering exactly the constructs the
source patterns use (character classes with counted repetition, literals,
word boundaries, group repetition, alternation), with an explicit fuel
argument so that every definition is structurally recursive and kernel
computable.
-/

/-- Python `\s` / `str.strip()` whitespace class (ASCII part). -/
def isSpaceCh (c : Char) : Bool :=
  c = ' ' || c = '\t' || c = '\n' || c = '\r' || c = '\x0b' || c = '\x0c'

/-- Python regex word character (`\w`, used by `\b`): `[A-Za-z0-9_]` (ASCII part). -/
def isWordCh (c : Char) : Bool :=
  c.isAlpha || c.isDigit || c = '_'

/-- ASCII decimal digit, Python regex `\d` (ASCII part). -/
def isDigitCh (c : Char) : Bool := c.isDigit

/-- Python regex `\S`: any non-whitespace character. -/
def notSpaceCh (c : Char) : Bool := !isSpaceCh c

/-- Python `str.strip()`: drop leading and trailing whitespace. -/
def pyStrip (s : List Char) : List Char :=
  ((s.dropWhile isSpaceCh).reverse.dropWhile isSpaceCh).reverse

/-- Helper for `collapseWs`: `inRun` records whether the previous character was
part of a whitespace run that has already emitted its single `' '`. -/
def collapseAux : Bool → List Char → List Char
  | _, [] => []
  | inRun, c :: rest =>
    if isSpaceCh c then
      if inRun then collapseAux true rest
      else ' ' :: collapseAux true rest
    else c :: collapseAux false rest

/-- Python `re.sub(r'\s+', ' ', s)`: replace each maximal whitespace run by a
single space. -/
def collapseWs (s : List Char) : List Char := collapseAux false s

/-- Python `str.split('\n')` (as used on the cleaned text). -/
def splitLines : List Char → List (List Char)
  | [] => [[]]
  | c :: rest =>
    if c = '\n' then [] :: splitLines rest
    else
      match splitLines rest with
      | [] => [[c]]
      | l :: ls => (c :: l) :: ls

/-- Python `str.split()` with no separator: split on whitespace runs,
discarding empty pieces. -/
def pySplit : List Char → List (List Char)
  | [] => []
  | c :: rest =>
    if isSpaceCh c then pySplit rest
    else
      match pySplit rest with
      | [] => [[c]]
      | l :: ls =>
        match rest with
        | [] => [[c]]
        | d :: _ => if isSpaceCh d then [c] :: l :: ls else (c :: l) :: ls

/-- Lowercase a string character-wise, Python `str.lower()` (ASCII part). -/
def strLowerL (s : List Char) : List Char := s.map Char.toLower

/-- Python `str.lower()` on `String`. -/
def strLower (s : String) : String := String.mk (strLowerL s.data)

/-- `s.take p.length = p`: does `s` start with `p`? -/
def startsWithL (p s : List Char) : Bool := decide (s.take p.length = p)

/-- Python `sub in s` for strings: `p` occurs contiguously inside `s`. -/
def isSubstrL (p s : List Char) : Bool :=
  (List.range (s.length + 1)).any (fun i => startsWithL p (s.drop i))

/-- Python `s.count(sub)` (for nonempty `sub`): number of non-overlapping
occurrences, scanning left to right.  `fuel` is an upper bound on the length
of the remaining haystack; `countOcc` instantiates it sufficiently. -/
def countOccF (needle : List Char) : Nat → List Char → Nat
  | 0, _ => 0
  | _ + 1, [] => 0
  | f + 1, x :: rest =>
    if startsWithL needle (x :: rest) then
      1 + countOccF needle f ((x :: rest).drop needle.length)
    else countOccF needle f rest

/-- Python `s.count(sub)`. -/
def countOcc (needle s : List Char) : Nat := countOccF needle s.length s

/-! ## A small backtracking regex engine

Exactly the constructs the source's patterns need. `cls p lo hi` is a
character class with counted greedy repetition (`hi = none` meaning
unbounded, so `cls p 1 none` is `p+`); `rep sub lo` is greedy group
repetition `(sub){lo,}`; `alt a b` is `(a|b)`; `wb` is `\b`. -/

inductive Rx where
  | wb : Rx
  | lit : Char → Rx
  | cls : (Char → Bool) → Nat → Option Nat → Rx
  | rep : List Rx → Nat → Rx
  | alt : List Rx → List Rx → Rx

/-- Is there a word boundary between a previous character and a next one
(string edges count as non-word)? -/
def boundaryOk (prev next : Option Char) : Bool :=
  (match prev with | some c => isWordCh c | none => false)
    != (match next with | some c => isWordCh c | none => false)

/-- Candidate repetition counts `top, top-1, ..., lo` in greedy preference
order (empty if `top < lo`). -/
def descRange (lo top : Nat) : List Nat :=
  (List.range (top + 1 - lo)).map (fun i => top - i)

/-- Backtracking matcher anchored at the current position: returns the number
of characters consumed by the first (greedy-order) way the whole pattern list
matches a prefix of `s`, given the character `prev` just before the current
position.  `fuel` bounds recursion depth; every recursive call decreases it,
and `rxFuel` below always provides enough for the source's patterns. -/
def matchSeqF : Nat → List Rx → Option Char → List Char → Option Nat
  | 0, _, _, _ => none
  | _ + 1, [], _, _ => some 0
  | f + 1, .wb :: ps, prev, s =>
    if boundaryOk prev s.head? then matchSeqF f ps prev s else none
  | f + 1, .lit c :: ps, _, s =>
    match s with
    | [] => none
    | x :: rest =>
      if x = c then (matchSeqF f ps (some x) rest).map (· + 1) else none
  | f + 1, .cls p lo hi :: ps, prev, s =>
    let m := (s.takeWhile p).length
    let top := match hi with | none => m | some h => min h m
    (descRange lo top).findSome? (fun k =>
      match k with
      | 0 => matchSeqF f ps prev s
      | _ + 1 => (matchSeqF f ps ((s.take k).getLast?) (s.drop k)).map (· + k))
  | f + 1, .rep sub lo :: ps, prev, s =>
    if lo = 0 then
      match matchSeqF f (sub ++ Rx.rep sub 0 :: ps) prev s with
      | some n => some n
      | none => matchSeqF f ps prev s
    else matchSeqF f (sub ++ Rx.rep sub (lo - 1) :: ps) prev s
  | f + 1, .alt a b :: ps, prev, s =>
    match matchSeqF f (a ++ ps) prev s with
    | some n => some n
    | none => matchSeqF f (b ++ ps) prev s

/-- A generous fuel bound for `matchSeqF` on the source's patterns: each
group iteration consumes at least one character and expands to at most seven
engine steps. -/
def rxFuel (s : List Char) : Nat := 8 * s.length + 64

/-- Match a pattern at the current position (with `prev` the preceding
character), as Python's engine does when scanning. -/
def matchSeq (ps : List Rx) (prev : Option Char) (s : List Char) : Option Nat :=
  matchSeqF (rxFuel s) ps prev s

/-- Python `re.sub(pattern, '', s)` scanning: at each position try to match;
on a (nonempty) match drop the matched characters and continue after them,
otherwise keep the character and move on.  `fuel ≥ s.length` always
suffices. -/
def subAllF (pat : List Rx) : Nat → Option Char → List Char → List Char
  | 0, _, s => s
  | _ + 1, _, [] => []
  | f + 1, prev, x :: rest =>
    match matchSeq pat prev (x :: rest) with
    | some (n + 1) =>
      subAllF pat f (((x :: rest).take (n + 1)).getLast?)
        ((x :: rest).drop (n + 1))
    | _ => x :: subAllF pat f (some x) rest

/-- Python `re.sub(pattern, '', s)`. -/
def subAll (pat : List Rx) (s : List Char) : List Char :=
  subAllF pat s.length none s

/-- Python `re.findall(pattern, s)`: the list of non-overlapping matches,
scanning left to right. -/
def findAllF (pat : List Rx) : Nat → Option Char → List Char → List (List Char)
  | 0, _, _ => []
  | _ + 1, _, [] => []
  | f + 1, prev, x :: rest =>
    match matchSeq pat prev (x :: rest) with
    | some (n + 1) =>
      (x :: rest).take (n + 1) ::
        findAllF pat f (((x :: rest).take (n + 1)).getLast?)
          ((x :: rest).drop (n + 1))
    | _ => findAllF pat f (some x) rest

/-- Python `re.findall(pattern, s)`. -/
def findAll (pat : List Rx) (s : List Char) : List (List Char) :=
  findAllF pat s.length none s

/-! ## TextNormalizer: `ArtistExtractionService.clean_text` -/

/-- `\b\d{1,2}[:/]\d{2}\b`. -/
def timePat : List Rx :=
  [.wb, .cls isDigitCh 1 (some 2), .cls (fun c => c = ':' || c = '/') 1 (some 1),
   .cls isDigitCh 2 (some 2), .wb]

/-- `\$\d+`. -/
def currencyPat : List Rx := [.lit '$', .cls isDigitCh 1 none]

/-- `\b\d{1,2}/\d{1,2}/\d{2,4}\b`. -/
def datePat : List Rx :=
  [.wb, .cls isDigitCh 1 (some 2), .lit '/', .cls isDigitCh 1 (some 2),
   .lit '/', .cls isDigitCh 2 (some 4), .wb]

/-- `\bwww\.\S+\b`. -/
def urlPat : List Rx :=
  [.wb, .lit 'w', .lit 'w', .lit 'w', .lit '.', .cls notSpaceCh 1 none, .wb]

/-- `\b\S+@\S+\.\S+\b`. -/
def emailPat : List Rx :=
  [.wb, .cls notSpaceCh 1 none, .lit '@', .cls notSpaceCh 1 none,
   .lit '.', .cls notSpaceCh 1 none, .wb]

/-- `ArtistExtractionService.clean_text`: collapse whitespace on the stripped
input, then delete time, currency, date, URL and email substrings, then strip
again. -/
def clean_text (s : String) : String :=
  let t := collapseWs (pyStrip s.data)
  let t := subAll timePat t
  let t := subAll currencyPat t
  let t := subAll datePat t
  let t := subAll urlPat t
  let t := subAll emailPat t
  String.mk (pyStrip t)

/-! ## Data model -/

/-- A candidate artist as produced by any extractor: the dictionaries
`{"name": ..., "confidence": ..., "method": ..., "context": ...}` of the
source. -/
structure Candidate where
  name : String
  confidence : ℚ
  method : String
  context : String
deriving DecidableEq, Repr

/-! ## CatalogMatcher: `SpotifyService` -/

/-- `SpotifyService.calculate_artist_match_score`: 1.0 on case-insensitive
equality after trimming, 0.9 when one name contains the other, otherwise the
Jaccard similarity of the lowercased word sets. -/
def calculate_artist_match_score (search_name found_name : String) : ℚ :=
  let search_lower := pyStrip (strLowerL search_name.data)
  let found_lower := pyStrip (strLowerL found_name.data)
  if search_lower = found_lower then 1
  else if isSubstrL search_lower found_lower || isSubstrL found_lower search_lower then
    9/10
  else
    let search_words := (pySplit search_lower).dedup
    let found_words := (pySplit found_lower).dedup
    if search_words = [] ∨ found_words = [] then 0
    else
      let overlap := (search_words.filter (fun w => found_words.contains w)).length
      let total :=
        (search_words ++ found_words.filter (fun w => !search_words.contains w)).length
      if 0 < total then (overlap : ℚ) / (total : ℚ) else 0

/-- The best-match selection of `SpotifyService.search_artist` (lines
173-183): keep the candidate with the strictly highest score and accept it
only when that score exceeds 0.7. -/
def bestMatch (artist_name : String) (artists : List String) : Option (String × ℚ) :=
  let best := artists.foldl
    (fun (acc : Option String × ℚ) a =>
      let score := calculate_artist_match_score artist_name a
      if score > acc.2 then (some a, score) else acc)
    (none, 0)
  match best with
  | (some best_name, best_score) =>
    if best_score > 7/10 then some (best_name, best_score) else none
  | (none, _) => none

/-! ## PatternExtractor: `ArtistExtractionService.extract_with_patterns` -/

/-- `ArtistExtractionService.filter_words`. -/
def filter_words : List String :=
  ["festival", "fest", "music", "stage", "main", "tent", "arena", "hall",
   "presents", "featuring", "with", "special", "guest", "guests", "live",
   "concert", "show", "performance", "event", "venue", "location", "date",
   "time", "tickets", "admission", "price", "cost", "age", "limit", "door",
   "doors", "open", "start", "end", "saturday", "sunday", "monday", "tuesday",
   "wednesday", "thursday", "friday", "january", "february", "march", "april",
   "may", "june", "july", "august", "september", "october", "november", "december",
   "am", "pm", "sponsored", "by", "presented", "produced", "organized"]

/-- `(?:\s+[A-Z][a-z]+)` of the first artist pattern. -/
def capWordGroup : List Rx :=
  [.cls isSpaceCh 1 none, .cls Char.isUpper 1 (some 1), .cls Char.isLower 1 none]

/-- `\b[A-Z][a-z]+(?:\s+[A-Z][a-z]+)*\b`. -/
def artistPat1 : List Rx :=
  [.wb, .cls Char.isUpper 1 (some 1), .cls Char.isLower 1 none, .rep capWordGroup 0, .wb]

/-- `\b[A-Z]+\b`. -/
def artistPat2 : List Rx := [.wb, .cls Char.isUpper 1 none, .wb]

/-- `(?:\s+&\s+[A-Z][a-z]+)` of the third artist pattern. -/
def ampWordGroup : List Rx :=
  [.cls isSpaceCh 1 none, .lit '&', .cls isSpaceCh 1 none,
   .cls Char.isUpper 1 (some 1), .cls Char.isLower 1 none]

/-- `\b[A-Z][a-z]+(?:\s+&\s+[A-Z][a-z]+)+\b`. -/
def artistPat3 : List Rx :=
  [.wb, .cls Char.isUpper 1 (some 1), .cls Char.isLower 1 none, .rep ampWordGroup 1, .wb]

/-- `(?:\s+and\s+[A-Z][a-z]+)` of the fourth artist pattern. -/
def andWordGroup : List Rx :=
  [.cls isSpaceCh 1 none, .lit 'a', .lit 'n', .lit 'd', .cls isSpaceCh 1 none,
   .cls Char.isUpper 1 (some 1), .cls Char.isLower 1 none]

/-- `\b[A-Z][a-z]+(?:\s+and\s+[A-Z][a-z]+)+\b`. -/
def artistPat4 : List Rx :=
  [.wb, .cls Char.isUpper 1 (some 1), .cls Char.isLower 1 none, .rep andWordGroup 1, .wb]

/-- `ArtistExtractionService.artist_patterns`. -/
def artist_patterns : List (List Rx) :=
  [artistPat1, artistPat2, artistPat3, artistPat4]

/-- `ArtistExtractionService.calculate_pattern_confidence`: the sequential
additive heuristic of the source (the empty-match case, on which the Python
code would raise an IndexError, scores the capitalization boost as false). -/
def calculate_pattern_confidence (mtch line full_text : List Char) : ℚ :=
  let confidence : ℚ := 1/2
  let confidence :=
    if (match mtch with
        | c :: rest => c.isUpper && rest.any Char.isLower
        | [] => false) then confidence + 1/5 else confidence
  let confidence := if pyStrip line = pyStrip mtch then confidence + 3/10 else confidence
  let confidence :=
    if 3 ≤ (pySplit mtch).length ∧ (pySplit mtch).length ≤ 4 then confidence + 1/10
    else confidence
  let confidence := if mtch.any Char.isDigit then confidence - 1/5 else confidence
  let occurrences := countOcc (strLowerL mtch) (strLowerL full_text)
  let confidence :=
    if 1 < occurrences then confidence + min (1/5 : ℚ) ((occurrences : ℚ) * (1/20))
    else confidence
  min 1 (max 0 confidence)

/-- The per-match body of the `extract_with_patterns` loop: stop-word filter,
length window, confidence guard. -/
def candidateOfMatch (full line mtch : List Char) : Option Candidate :=
  let words := pySplit (strLowerL mtch)
  if words.any (fun w => filter_words.contains (String.mk w)) then none
  else if mtch.length < 2 || mtch.length > 50 then none
  else
    let confidence := calculate_pattern_confidence mtch line full
    if confidence > 3/10 then
      some ⟨String.mk (pyStrip mtch), confidence, "pattern_matching", String.mk (pyStrip line)⟩
    else none

/-- All candidates a single (already stripped) line contributes, across the
four patterns, in source order. -/
def lineCandidates (full line : List Char) : List Candidate :=
  (artist_patterns.map (fun pat => (findAll pat line).filterMap (candidateOfMatch full line))).join

/-- The `potential_artists` list of `extract_with_patterns`, before
deduplication. -/
def potentialArtists (text : String) : List Candidate :=
  ((splitLines text.data).map (fun rawLine =>
    let line := pyStrip rawLine
    if line = [] || line.length < 2 then [] else lineCandidates text.data line)).join

/-- Stable descending insertion used by `sortDesc`. -/
def insertDesc (a : Candidate) : List Candidate → List Candidate
  | [] => [a]
  | b :: rest => if b.confidence > a.confidence then b :: insertDesc a rest else a :: b :: rest

/-- Python `sorted(..., key=confidence, reverse=True)` / stable
`list.sort(..., reverse=True)`: stable sort by descending confidence. -/
def sortDesc : List Candidate → List Candidate
  | [] => []
  | a :: rest => insertDesc a (sortDesc rest)

/-- The `seen`-set deduplication loop of `extract_with_patterns`: keep the
first occurrence of each case-insensitive name. -/
def dedupKeys (seen : List String) : List Candidate → List Candidate
  | [] => []
  | a :: rest =>
    if seen.contains (strLower a.name) then dedupKeys seen rest
    else a :: dedupKeys (strLower a.name :: seen) rest

/-- `ArtistExtractionService.extract_with_patterns`. -/
def extract_with_patterns (text : String) : List Candidate :=
  (dedupKeys [] (sortDesc (potentialArtists text))).take 20

/-! ## ExtractionReconciler: the merge of `extract_artists` (lines 281-299) -/

/-- One step of the `merged_artists` dictionary update: if the key is
already present, replace its entry (in place) only when the new candidate's
confidence is strictly greater; otherwise insert at the end. -/
def upsert (m : List (String × Candidate)) (key : String) (c : Candidate) :
    List (String × Candidate) :=
  match m with
  | [] => [(key, c)]
  | (k, v) :: rest =>
    if k = key then
      if c.confidence > v.confidence then (k, c) :: rest else (k, v) :: rest
    else (k, v) :: upsert rest key c

/-- The `merged_artists` insertion-ordered dictionary, keyed by
`artist['name'].lower()`. -/
def mergeCandidates (all_artists : List Candidate) : List (String × Candidate) :=
  all_artists.foldl (fun m a => upsert m (strLower a.name) a) []

/-- The merge, threshold filter and descending sort of
`ArtistExtractionService.extract_artists`, on the two candidate lists it
combines. -/
def extract_artists_core (pattern_artists ai_artists : List Candidate)
    (confidence_threshold : ℚ) : List Candidate :=
  let all_artists := pattern_artists ++ ai_artists
  let merged := mergeCandidates all_artists
  let final_artists := (merged.map Prod.snd).filter
    (fun artist => artist.confidence ≥ confidence_threshold)
  sortDesc final_artists

/-! ## AIExtractorAdapter: `GeminiService` and `extract_with_vertex_ai`

The JSON transport (prompting, `re.search(r'\[.*\]', ...)`, `json.loads`) is
thin I/O; its outcome is modelled explicitly.  A parsed JSON array item is
either a dict with optional `name`/`confidence` fields or a non-dict, and a
field value is a string, a number, or something else. -/

/-- A parsed JSON field value (numeric strings and booleans are not
modelled: `jother` stands for any value that is neither a string nor a
number). -/
inductive JVal where
  | jstr : String → JVal
  | jnum : ℚ → JVal
  | jother : JVal
deriving DecidableEq, Repr

/-- One item of the parsed JSON array. -/
inductive JItem where
  | jdict : Option JVal → Option JVal → JItem
  | jnondict : JItem
deriving DecidableEq, Repr

/-- Python `str(...)` on a parsed value (the exact rendering of non-string
values never matters to the claims: a stored name is always guarded by a
non-emptiness check on the result). -/
def pyStr : JVal → String
  | .jstr s => s
  | .jnum q => toString q
  | .jother => "None"

/-- Python `float(...)` on a parsed value: numbers convert, everything else
is modelled as raising (numeric strings are not modelled). -/
def pyFloat : JVal → Option ℚ
  | .jnum q => some q
  | _ => none

/-- `GeminiService._is_likely_artist_name`: the excluded-term list. -/
def excluded_terms : List String :=
  ["festival", "music", "stage", "main", "tent", "area", "zone",
   "tickets", "price", "cost", "free", "admission", "entry",
   "food", "drinks", "bar", "restaurant", "vendor",
   "parking", "shuttle", "transport", "bus",
   "saturday", "sunday", "monday", "tuesday", "wednesday", "thursday", "friday",
   "january", "february", "march", "april", "may", "june",
   "july", "august", "september", "october", "november", "december",
   "am", "pm", "time", "schedule", "lineup",
   "sponsored", "presents", "featuring", "with"]

/-- `^\d{1,2}:\d{2}` (used with `re.match`, anchored at the start). -/
def leadTimePat : List Rx :=
  [.cls isDigitCh 1 (some 2), .lit ':', .cls isDigitCh 2 (some 2)]

/-- `^\d{1,2}(am|pm)`. -/
def leadAmPmPat : List Rx :=
  [.cls isDigitCh 1 (some 2), .alt [.lit 'a', .lit 'm'] [.lit 'p', .lit 'm']]

/-- `^\$\d+`. -/
def leadPricePat : List Rx := [.lit '$', .cls isDigitCh 1 none]

/-- Python `re.match(pat, s)` viewed as a test: does `pat` match at the very
start of `s`? -/
def reMatch (pat : List Rx) (s : List Char) : Bool :=
  (matchSeq pat none s).isSome

/-- `GeminiService._is_likely_artist_name`. -/
def is_likely_artist_name (name : String) : Bool :=
  let name_lower := pyStrip (strLowerL name.data)
  if name.data.length < 2 || excluded_terms.contains (String.mk name_lower) then false
  else if reMatch leadTimePat name.data || reMatch leadAmPmPat name_lower then false
  else if reMatch leadPricePat name.data || isSubstrL "dollar".data name_lower then false
  else true

/-- The validation loop of `GeminiService._parse_gemini_response` over the
parsed array items.  `none` models an exception escaping the loop (Python's
`.strip()` on a non-string `name`), which the surrounding handler turns into
`[]`. -/
def geminiEntryLoop : List JItem → Option (List Candidate)
  | [] => some []
  | .jnondict :: rest => geminiEntryLoop rest
  | .jdict nameV confV :: rest =>
    match nameV.getD (.jstr "") with
    | .jstr rawName =>
      let name := String.mk (pyStrip rawName.data)
      match confV.getD (.jnum 0) with
      | .jnum q =>
        if name = "" then geminiEntryLoop rest
        else
          let confidence := max 0 (min 1 q)
          if is_likely_artist_name name then
            (geminiEntryLoop rest).map (fun l => ⟨name, confidence, "gemini", ""⟩ :: l)
          else geminiEntryLoop rest
      | _ => geminiEntryLoop rest
    | _ => none

/-- Outcome of one AI call as seen by the extraction functions, with the
transport and JSON-decoding stages made explicit. -/
inductive AIOutcome where
  | transportError : AIOutcome
  | emptyText : AIOutcome
  | noJsonArray : AIOutcome
  | badJson : AIOutcome
  | parsed : List JItem → AIOutcome
deriving DecidableEq, Repr

/-- `GeminiService._parse_gemini_response`: no array found or a decoding
error yields `[]`; an exception inside the validation loop is caught and
also yields `[]`. -/
def parse_gemini_response : AIOutcome → List Candidate
  | .parsed items =>
    match geminiEntryLoop items with
    | some l => l
    | none => []
  | _ => []

/-- `GeminiService.extract_artists_from_text`. -/
def gemini_extract_from_text (available : Bool) (oc : AIOutcome) : List Candidate :=
  if !available then []
  else
    match oc with
    | .transportError => []
    | .emptyText => []
    | oc => parse_gemini_response oc

/-- `GeminiService.extract_artists_from_image`: identical post-processing of
the model response through `_parse_gemini_response`. -/
def gemini_extract_from_image (available : Bool) (oc : AIOutcome) : List Candidate :=
  if !available then []
  else
    match oc with
    | .transportError => []
    | .emptyText => []
    | oc => parse_gemini_response oc

/-- The validation loop of `ArtistExtractionService.extract_with_vertex_ai`
over the parsed array items.  `none` models `float(...)` raising on a
non-numeric confidence, which the surrounding handler turns into `[]`. -/
def vertexEntryLoop : List JItem → Option (List Candidate)
  | [] => some []
  | .jnondict :: rest => vertexEntryLoop rest
  | .jdict nameV confV :: rest =>
    match nameV, confV with
    | some nv, some cv =>
      let name := String.mk (pyStrip (pyStr nv).data)
      match pyFloat cv with
      | some confidence =>
        if name ≠ "" ∧ 0 ≤ confidence ∧ confidence ≤ 1 then
          (vertexEntryLoop rest).map (fun l => ⟨name, confidence, "vertex_ai", ""⟩ :: l)
        else vertexEntryLoop rest
      | none => none
    | _, _ => vertexEntryLoop rest

/-- `ArtistExtractionService.extract_with_vertex_ai`. -/
def extract_with_vertex_ai (hasProject : Bool) (oc : AIOutcome) : List Candidate :=
  if !hasProject then []
  else
    match oc with
    | .transportError => []
    | .emptyText => []
    | .noJsonArray => []
    | .badJson => []
    | .parsed items =>
      match vertexEntryLoop items with
      | some l => l
      | none => []

/-- `ArtistExtractionService.extract_with_gemini`: availability guard plus a
catch-all handler around the Gemini text extraction. -/
def extract_with_gemini (available : Bool) (oc : AIOutcome) : List Candidate :=
  if !available then []
  else gemini_extract_from_text available oc

/-! ## Auxiliary observation functions and spec-side definitions -/

/-- Dictionary lookup in the insertion-ordered `merged_artists` map. -/
def lookupKey (key : String) : List (String × Candidate) → Option Candidate
  | [] => none
  | (k, v) :: rest => if k = key then some v else lookupKey key rest

/-- The per-key effect of the merge loop: first candidate wins, later ones
replace it only on strictly greater confidence. -/
def bestStep (acc : Option Candidate) (c : Candidate) : Option Candidate :=
  match acc with
  | none => some c
  | some v => if c.confidence > v.confidence then some c else some v

/-- Modelled from the spec (§4.2 step 4): the pattern-confidence formula as
one clamped sum of indicator terms, to be compared with the source's
sequential `calculate_pattern_confidence`. -/
def specPatternConfidence (mtch line full_text : List Char) : ℚ :=
  let occurrences := countOcc (strLowerL mtch) (strLowerL full_text)
  let score : ℚ := 1/2
    + (if (match mtch with
           | c :: rest => c.isUpper && rest.any Char.isLower
           | [] => false) then 1/5 else 0)
    + (if pyStrip line = mtch then 3/10 else 0)
    + (if 3 ≤ (pySplit mtch).length ∧ (pySplit mtch).length ≤ 4 then 1/10 else 0)
    - (if mtch.any Char.isDigit then 1/5 else 0)
    + (if 1 < occurrences then min (1/5) ((occurrences : ℚ) * (1/20)) else 0)
  min 1 (max 0 score)

/-! ## Theorems -/

attribute [local semireducible] Rat.add Rat.mul Rat.sub Rat.inv

/-- C1: the claim as stated is false: for query "Beatles" against the single
catalog entry "The Beatles Tribute Band" at threshold 0.7, the similarity
score is not the token-overlap value 1/4 and `bestMatch` does not return
"no match". -/
theorem C1_counterexample :
    ¬ (calculate_artist_match_score "Beatles" "The Beatles Tribute Band" = 1/4 ∧
       bestMatch "Beatles" ["The Beatles Tribute Band"] = none) := by
  decide

/-- C1 (amended): "beatles" is a case-insensitive substring of
"the beatles tribute band", so the substring rule fires before the
token-overlap rule: the score is 0.9, which exceeds the 0.7 threshold, and
`bestMatch` returns the entry with score 0.9. -/
theorem C1_substring_rule_fires :
    isSubstrL (pyStrip (strLowerL "Beatles".data))
        (pyStrip (strLowerL "The Beatles Tribute Band".data)) = true ∧
    calculate_artist_match_score "Beatles" "The Beatles Tribute Band" = 9/10 ∧
    bestMatch "Beatles" ["The Beatles Tribute Band"] =
      some ("The Beatles Tribute Band", 9/10) := by
  decide

/-- C2: `clean_text` is not idempotent: it applies the whitespace-collapse
pass first, so deleting "3:00" from "a 3:00 b" leaves a double space, and a
second application collapses it. -/
theorem C2_clean_text_not_idempotent :
    clean_text "a 3:00 b" = "a  b" ∧
    clean_text (clean_text "a 3:00 b") = "a b" ∧
    clean_text (clean_text "a 3:00 b") ≠ clean_text "a 3:00 b" := by
  decide

theorem lookupKey_upsert_self (m : List (String × Candidate)) (key : String) (c : Candidate) :
    lookupKey key (upsert m key c) = bestStep (lookupKey key m) c := by
  induction m with
  | nil => simp [upsert, lookupKey, bestStep]
  | cons p rest ih =>
    obtain ⟨k, v⟩ := p
    by_cases hk : k = key
    · subst hk
      by_cases hc : c.confidence > v.confidence <;>
        simp [upsert, lookupKey, bestStep, hc]
    · simp [upsert, lookupKey, hk, ih]

theorem lookupKey_upsert_other (m : List (String × Candidate)) (key key' : String)
    (c : Candidate) (h : key' ≠ key) :
    lookupKey key' (upsert m key c) = lookupKey key' m := by
  induction m with
  | nil => simp [upsert, lookupKey, Ne.symm h]
  | cons p rest ih =>
    obtain ⟨k, v⟩ := p
    by_cases hk : k = key
    · subst hk
      by_cases hc : c.confidence > v.confidence <;>
        simp [upsert, lookupKey, hc, Ne.symm h]
    · simp [upsert, lookupKey, hk, ih]

theorem lookupKey_mergeFold (l : List Candidate) (m : List (String × Candidate))
    (key : String) :
    lookupKey key (l.foldl (fun m a => upsert m (strLower a.name) a) m) =
      (l.filter (fun a => strLower a.name == key)).foldl bestStep (lookupKey key m) := by
  induction l generalizing m with
  | nil => simp
  | cons a l ih =>
    rw [List.foldl_cons, ih, List.filter_cons]
    by_cases h : strLower a.name = key
    · simp only [h, beq_self_eq_true, if_true, List.foldl_cons]
      rw [lookupKey_upsert_self]
    · have hb : (strLower a.name == key) = false := beq_eq_false_iff_ne.mpr h
      simp only [hb, Bool.false_eq_true, if_false]
      rw [lookupKey_upsert_other _ _ _ _ (Ne.symm h)]

/-- C3: monotonic merge of the reconciler.  If the candidates carrying a
given case-insensitive key, in concatenation order, are exactly `a` then `b`,
the merged entry for that key is `b` (its confidence and method included)
when `b`'s confidence is strictly greater, and is the earliest-inserted `a`
on a confidence tie. -/
theorem C3_merge_rule (l1 l2 : List Candidate) (a b : Candidate) (key : String)
    (hf : (l1 ++ l2).filter (fun c => strLower c.name == key) = [a, b]) :
    (a.confidence < b.confidence →
        lookupKey key (mergeCandidates (l1 ++ l2)) = some b) ∧
    (a.confidence = b.confidence →
        lookupKey key (mergeCandidates (l1 ++ l2)) = some a) := by
  have h := lookupKey_mergeFold (l1 ++ l2) [] key
  rw [hf] at h
  simp only [lookupKey, List.foldl_cons, List.foldl_nil] at h
  rw [mergeCandidates] at *
  constructor
  · intro hlt
    rw [h]
    simp [bestStep, hlt]
  · intro heq
    rw [h]
    simp [bestStep, heq]

/-- Witness for C3 at the spec's §8 scenario: pattern candidate
"Daft Punk"@0.6 and AI candidate "daft punk"@0.9 merge to the AI entry. -/
theorem C3_merge_rule_witness :
    lookupKey "daft punk" (mergeCandidates
      ([⟨"Daft Punk", 6/10, "pattern_matching", ""⟩] ++
       [⟨"daft punk", 9/10, "gemini", ""⟩])) =
      some ⟨"daft punk", 9/10, "gemini", ""⟩ :=
  (C3_merge_rule [⟨"Daft Punk", 6/10, "pattern_matching", ""⟩]
      [⟨"daft punk", 9/10, "gemini", ""⟩]
      ⟨"Daft Punk", 6/10, "pattern_matching", ""⟩
      ⟨"daft punk", 9/10, "gemini", ""⟩ "daft punk" (by decide)).1 (by norm_num)

theorem mem_insertDesc {x a : Candidate} {l : List Candidate} :
    x ∈ insertDesc a l ↔ x = a ∨ x ∈ l := by
  induction l with
  | nil => simp [insertDesc]
  | cons b rest ih =>
    by_cases h : b.confidence > a.confidence <;>
      (simp [insertDesc, h, ih]; try tauto)

theorem insertDesc_perm (a : Candidate) (l : List Candidate) :
    List.Perm (insertDesc a l) (a :: l) := by
  induction l with
  | nil => exact List.Perm.refl _
  | cons b rest ih =>
    by_cases h : b.confidence > a.confidence
    · simp only [insertDesc, h, if_true]
      exact (ih.cons b).trans (List.Perm.swap a b rest)
    · simp only [insertDesc, h, if_false]
      exact List.Perm.refl _

theorem sortDesc_perm (l : List Candidate) : List.Perm (sortDesc l) l := by
  induction l with
  | nil => exact List.Perm.refl _
  | cons a rest ih => exact (insertDesc_perm a (sortDesc rest)).trans (ih.cons a)

/-- C7: confidence floor of the reconciler.  Every entry of the merged,
filtered and sorted output of `extract_artists` has confidence at least the
caller-supplied threshold. -/
theorem C7_confidence_floor (pattern_artists ai_artists : List Candidate)
    (confidence_threshold : ℚ) :
    ∀ c ∈ extract_artists_core pattern_artists ai_artists confidence_threshold,
      confidence_threshold ≤ c.confidence := by
  intro c hc
  simp only [extract_artists_core] at hc
  have hc2 := (sortDesc_perm _).mem_iff.mp hc
  have hp := List.of_mem_filter hc2
  exact of_decide_eq_true hp

/-- Witness for C7 at a concrete input: a single candidate of confidence 1
against threshold 1/2. -/
theorem C7_confidence_floor_witness :
    (1/2 : ℚ) ≤ (Candidate.mk "Muse" 1 "pattern_matching" "").confidence :=
  C7_confidence_floor [Candidate.mk "Muse" 1 "pattern_matching" ""] [] (1/2)
    (Candidate.mk "Muse" 1 "pattern_matching" "") (by decide)

theorem upsert_keys_subset {m : List (String × Candidate)} {key : String} {c : Candidate}
    {x : String} (hx : x ∈ (upsert m key c).map Prod.fst) :
    x = key ∨ x ∈ m.map Prod.fst := by
  induction m with
  | nil => simpa [upsert] using hx
  | cons p rest ih =>
    obtain ⟨k, v⟩ := p
    by_cases hk : k = key
    · subst hk
      by_cases hc : c.confidence > v.confidence <;> (simp_all [upsert]; try tauto)
    · simp only [upsert, hk, if_false, List.map_cons, List.mem_cons] at hx ⊢
      rcases hx with h | h
      · exact Or.inr (Or.inl h)
      · rcases ih h with h | h
        · exact Or.inl h
        · exact Or.inr (Or.inr h)

theorem upsert_WF {m : List (String × Candidate)} {key : String} {c : Candidate}
    (h1 : (m.map Prod.fst).Pairwise (· ≠ ·))
    (h2 : ∀ p ∈ m, strLower p.2.name = p.1)
    (hkey : strLower c.name = key) :
    ((upsert m key c).map Prod.fst).Pairwise (· ≠ ·) ∧
      ∀ p ∈ upsert m key c, strLower p.2.name = p.1 := by
  induction m with
  | nil =>
    refine ⟨by simp [upsert], ?_⟩
    intro p hp
    simp only [upsert, List.mem_singleton] at hp
    subst hp
    exact hkey
  | cons q rest ih =>
    obtain ⟨k, v⟩ := q
    simp only [List.map_cons, List.pairwise_cons] at h1
    obtain ⟨hknotin, h1rest⟩ := h1
    have h2v : strLower v.name = k := h2 (k, v) (by simp)
    have h2rest : ∀ p ∈ rest, strLower p.2.name = p.1 := fun p hp => h2 p (by simp [hp])
    by_cases hk : k = key
    · subst hk
      have keys_eq : (upsert ((k, v) :: rest) k c).map Prod.fst = k :: rest.map Prod.fst := by
        by_cases hc : c.confidence > v.confidence <;> simp [upsert, hc]
      have mem_shape : ∀ p ∈ upsert ((k, v) :: rest) k c,
          p = (k, c) ∨ p = (k, v) ∨ p ∈ rest := by
        intro p hp
        by_cases hc : c.confidence > v.confidence <;> (simp_all [upsert]; try tauto)
      refine ⟨?_, ?_⟩
      · rw [keys_eq]
        exact List.pairwise_cons.mpr ⟨hknotin, h1rest⟩
      · intro p hp
        rcases mem_shape p hp with h | h | h
        · subst h; exact hkey
        · subst h; exact h2v
        · exact h2rest p h
    · obtain ⟨g1, g2⟩ := ih h1rest h2rest
      refine ⟨?_, ?_⟩
      · simp only [upsert, hk, if_false, List.map_cons, List.pairwise_cons]
        refine ⟨?_, g1⟩
        intro x hxmem
        rcases upsert_keys_subset hxmem with h | h
        · subst h; exact hk
        · exact hknotin x h
      · intro p hp
        simp only [upsert, hk, if_false, List.mem_cons] at hp
        rcases hp with h | h
        · subst h; exact h2v
        · exact g2 p h

theorem mergeFold_WF (l : List Candidate) (m : List (String × Candidate))
    (h1 : (m.map Prod.fst).Pairwise (· ≠ ·))
    (h2 : ∀ p ∈ m, strLower p.2.name = p.1) :
    ((l.foldl (fun m a => upsert m (strLower a.name) a) m).map Prod.fst).Pairwise (· ≠ ·) ∧
      ∀ p ∈ l.foldl (fun m a => upsert m (strLower a.name) a) m, strLower p.2.name = p.1 := by
  induction l generalizing m with
  | nil => exact ⟨h1, h2⟩
  | cons a l ih =>
    rw [List.foldl_cons]
    obtain ⟨g1, g2⟩ := upsert_WF h1 h2 rfl
    exact ih _ g1 g2

theorem mergeCandidates_values_pairwise (l : List Candidate) :
    ((mergeCandidates l).map Prod.snd).Pairwise
      (fun x y => strLower x.name ≠ strLower y.name) := by
  obtain ⟨h1, h2⟩ := mergeFold_WF l [] (by simp) (by simp)
  rw [mergeCandidates]
  rw [List.pairwise_map] at h1 ⊢
  refine h1.imp_of_mem ?_
  intro a b ha hb hne
  rw [h2 a ha, h2 b hb]
  exact hne

/-- C6: dedup invariant of the reconciler.  No two entries of the output of
`extract_artists` share a case-insensitive name, for any inputs and any
threshold. -/
theorem C6_dedup_invariant (pattern_artists ai_artists : List Candidate)
    (confidence_threshold : ℚ) :
    (extract_artists_core pattern_artists ai_artists confidence_threshold).Pairwise
      (fun x y => strLower x.name ≠ strLower y.name) := by
  simp only [extract_artists_core]
  have hsym : Symmetric (fun x y : Candidate => strLower x.name ≠ strLower y.name) :=
    fun x y h => Ne.symm h
  have hp : ((((mergeCandidates (pattern_artists ++ ai_artists)).map Prod.snd).filter
        (fun artist => artist.confidence ≥ confidence_threshold)).Pairwise
      (fun x y => strLower x.name ≠ strLower y.name)) :=
    List.Pairwise.sublist (List.filter_sublist _)
      (mergeCandidates_values_pairwise (pattern_artists ++ ai_artists))
  exact ((sortDesc_perm _).pairwise_iff (fun h => hsym h)).mpr hp

theorem data_mk (l : List Char) : (String.mk l).data = l := rfl

theorem mem_collapseAux {c : Char} (b : Bool) (l : List Char)
    (h : c ∈ collapseAux b l) : c = ' ' ∨ isSpaceCh c = false := by
  induction l generalizing b with
  | nil => simp [collapseAux] at h
  | cons d rest ih =>
    by_cases hd : isSpaceCh d
    · cases b
      · simp only [collapseAux, hd, if_true, Bool.false_eq_true, if_false,
          List.mem_cons] at h
        rcases h with h | h
        · exact Or.inl h
        · exact ih true h
      · simp only [collapseAux, hd, if_true] at h
        exact ih true h
    · simp only [collapseAux, hd, Bool.false_eq_true, if_false, List.mem_cons] at h
      rcases h with h | h
      · subst h
        exact Or.inr (by simpa using hd)
      · exact ih false h

theorem subAllF_sublist (pat : List Rx) (f : Nat) (prev : Option Char) (s : List Char) :
    List.Sublist (subAllF pat f prev s) s := by
  induction f generalizing prev s with
  | zero => exact List.Sublist.refl s
  | succ f ih =>
    cases s with
    | nil => simp [subAllF]
    | cons x rest =>
      simp only [subAllF]
      split
      · exact ((ih _ _).trans (List.drop_sublist _ _)).trans (List.Sublist.refl _)
      · exact List.Sublist.cons₂ x (ih _ _)

theorem mem_of_mem_dropWhile {p : Char → Bool} {l : List Char} {c : Char}
    (h : c ∈ l.dropWhile p) : c ∈ l := by
  induction l with
  | nil => simp at h
  | cons d rest ih =>
    by_cases hd : p d
    · simp only [List.dropWhile_cons, hd, if_true] at h
      exact List.mem_cons_of_mem d (ih h)
    · simp only [List.dropWhile_cons, hd, if_false] at h
      exact h

theorem mem_pyStrip {c : Char} {l : List Char} (h : c ∈ pyStrip l) : c ∈ l := by
  unfold pyStrip at h
  rw [List.mem_reverse] at h
  have h2 := mem_of_mem_dropWhile h
  rw [List.mem_reverse] at h2
  exact mem_of_mem_dropWhile h2

theorem splitLines_eq_single {l : List Char} (h : '\n' ∉ l) : splitLines l = [l] := by
  induction l with
  | nil => rfl
  | cons c rest ih =>
    have hc : ¬ (c = '\n') := fun he => h (by rw [he]; exact List.mem_cons_self _ _)
    have hrest : '\n' ∉ rest := fun hm => h (List.mem_cons_of_mem c hm)
    simp [splitLines, hc, ih hrest]

/-- C10: the cleaned text contains no newline character (the whitespace
collapse runs first and replaces line breaks by spaces; the removal passes
only delete characters), so the line split in `extract_with_patterns` sees
the whole cleaned document as one line. -/
theorem C10_clean_text_single_line (s : String) :
    '\n' ∉ (clean_text s).data ∧
      splitLines (clean_text s).data = [(clean_text s).data] := by
  have hnl : '\n' ∉ (clean_text s).data := by
    intro hmem
    simp only [clean_text, subAll, collapseWs, data_mk] at hmem
    have h1 := mem_pyStrip hmem
    have h2 := (subAllF_sublist emailPat _ _ _).subset h1
    have h3 := (subAllF_sublist urlPat _ _ _).subset h2
    have h4 := (subAllF_sublist datePat _ _ _).subset h3
    have h5 := (subAllF_sublist currencyPat _ _ _).subset h4
    have h6 := (subAllF_sublist timePat _ _ _).subset h5
    rcases mem_collapseAux false _ h6 with h | h
    · exact absurd h (by decide)
    · exact absurd h (by decide)
  exact ⟨hnl, splitLines_eq_single hnl⟩

/-- C5: the source's sequential confidence computation agrees with the
spec's clamped-sum formula on every surviving match (regex matches carry no
edge whitespace, so the match is its own trimmed form), for every line and
full document. -/
theorem C5_pattern_confidence_formula (mtch line full_text : List Char)
    (h : pyStrip mtch = mtch) :
    calculate_pattern_confidence mtch line full_text =
      specPatternConfidence mtch line full_text := by
  unfold calculate_pattern_confidence specPatternConfidence
  rw [h]
  dsimp only
  split_ifs <;> exact congrArg (fun z => 1 ⊓ (0 ⊔ z)) (by ring)

/-- Witness for C5 at a concrete surviving match. -/
theorem C5_pattern_confidence_formula_witness :
    calculate_pattern_confidence "Xy".data "Xy".data "Xy".data =
      specPatternConfidence "Xy".data "Xy".data "Xy".data :=
  C5_pattern_confidence_formula "Xy".data "Xy".data "Xy".data (by decide)

/-- C8: failure semantics of the AI extraction operations.  Unavailability
of the service, a transport error, an empty model response, a missing or
undecodable JSON array, or an exception escaping the validation loop all
yield the empty list (the embedding is total: every exception path is an
explicit branch mapped to `[]`). -/
theorem C8_ai_failure_semantics :
    (∀ oc, gemini_extract_from_text false oc = []) ∧
    (∀ oc, gemini_extract_from_image false oc = []) ∧
    (∀ oc, extract_with_gemini false oc = []) ∧
    (∀ oc, extract_with_vertex_ai false oc = []) ∧
    (∀ b, gemini_extract_from_text b .transportError = [] ∧
          gemini_extract_from_text b .emptyText = [] ∧
          gemini_extract_from_text b .noJsonArray = [] ∧
          gemini_extract_from_text b .badJson = []) ∧
    (∀ b, gemini_extract_from_image b .transportError = [] ∧
          gemini_extract_from_image b .emptyText = [] ∧
          gemini_extract_from_image b .noJsonArray = [] ∧
          gemini_extract_from_image b .badJson = []) ∧
    (∀ b, extract_with_gemini b .transportError = [] ∧
          extract_with_gemini b .emptyText = [] ∧
          extract_with_gemini b .noJsonArray = [] ∧
          extract_with_gemini b .badJson = []) ∧
    (∀ b, extract_with_vertex_ai b .transportError = [] ∧
          extract_with_vertex_ai b .emptyText = [] ∧
          extract_with_vertex_ai b .noJsonArray = [] ∧
          extract_with_vertex_ai b .badJson = []) ∧
    (∀ b items, geminiEntryLoop items = none →
        gemini_extract_from_text b (.parsed items) = [] ∧
        gemini_extract_from_image b (.parsed items) = [] ∧
        extract_with_gemini b (.parsed items) = []) ∧
    (∀ b items, vertexEntryLoop items = none →
        extract_with_vertex_ai b (.parsed items) = []) := by
  refine ⟨?_, ?_, ?_, ?_, ?_, ?_, ?_, ?_, ?_, ?_⟩
  · intro oc; rfl
  · intro oc; rfl
  · intro oc; rfl
  · intro oc; rfl
  · intro b; cases b <;> exact ⟨rfl, rfl, rfl, rfl⟩
  · intro b; cases b <;> exact ⟨rfl, rfl, rfl, rfl⟩
  · intro b; cases b <;> exact ⟨rfl, rfl, rfl, rfl⟩
  · intro b; cases b <;> exact ⟨rfl, rfl, rfl, rfl⟩
  · intro b items hnone
    cases b
    · exact ⟨rfl, rfl, rfl⟩
    · refine ⟨?_, ?_, ?_⟩ <;>
        simp [gemini_extract_from_text, gemini_extract_from_image,
          extract_with_gemini, parse_gemini_response, hnone]
  · intro b items hnone
    cases b
    · rfl
    · simp [extract_with_vertex_ai, hnone]

/-- Witness for C8: a parsed array whose first entry has a non-string name
(Gemini) or a non-numeric confidence (Vertex) makes the loop raise, and the
callers return the empty list. -/
theorem C8_ai_failure_semantics_witness :
    gemini_extract_from_text true (.parsed [.jdict (some .jother) (some (.jnum 1))]) = [] ∧
    extract_with_vertex_ai true (.parsed [.jdict (some (.jstr "A")) (some (.jstr "x"))]) = [] :=
  ⟨(C8_ai_failure_semantics.2.2.2.2.2.2.2.2.1 true
      [.jdict (some .jother) (some (.jnum 1))] (by decide)).1,
   C8_ai_failure_semantics.2.2.2.2.2.2.2.2.2 true
      [.jdict (some (.jstr "A")) (some (.jstr "x"))] (by decide)⟩

theorem dropWhile_dropWhile (p : Char → Bool) (l : List Char) :
    (l.dropWhile p).dropWhile p = l.dropWhile p := by
  induction l with
  | nil => rfl
  | cons c rest ih =>
    by_cases hc : p c
    · simp [List.dropWhile_cons, hc, ih]
    · simp [List.dropWhile_cons, hc]

theorem head_dropWhile_not {p : Char → Bool} {l : List Char} {c : Char}
    (h : (l.dropWhile p).head? = some c) : p c = false := by
  induction l with
  | nil => simp at h
  | cons d rest ih =>
    by_cases hd : p d
    · rw [List.dropWhile_cons, if_pos hd] at h
      exact ih h
    · rw [List.dropWhile_cons, if_neg hd] at h
      simp only [List.head?_cons, Option.some_inj] at h
      subst h
      simpa using hd

theorem getLast?_dropWhile {p : Char → Bool} {l : List Char}
    (h : l.dropWhile p ≠ []) : (l.dropWhile p).getLast? = l.getLast? := by
  induction l with
  | nil => simp at h
  | cons d rest ih =>
    by_cases hd : p d
    · rw [List.dropWhile_cons, if_pos hd] at h ⊢
      rw [ih h]
      have hrest : rest ≠ [] := by
        intro he
        rw [he] at h
        simp at h
      cases rest with
      | nil => exact absurd rfl hrest
      | cons e rest2 => rw [List.getLast?_cons_cons]
    · rw [List.dropWhile_cons, if_neg hd]

theorem dropWhile_eq_self_of_head {p : Char → Bool} {l : List Char}
    (h : ∀ c, l.head? = some c → p c = false) : l.dropWhile p = l := by
  cases l with
  | nil => rfl
  | cons d rest =>
    have hd := h d rfl
    rw [List.dropWhile_cons, if_neg (by simp [hd])]

theorem pyStrip_idem (l : List Char) : pyStrip (pyStrip l) = pyStrip l := by
  unfold pyStrip
  have h1 : ((l.dropWhile isSpaceCh).reverse.dropWhile isSpaceCh).reverse.dropWhile
      isSpaceCh = ((l.dropWhile isSpaceCh).reverse.dropWhile isSpaceCh).reverse := by
    apply dropWhile_eq_self_of_head
    intro c hc
    rw [List.head?_reverse] at hc
    by_cases hnil : (l.dropWhile isSpaceCh).reverse.dropWhile isSpaceCh = []
    · rw [hnil] at hc
      simp at hc
    · rw [getLast?_dropWhile hnil, List.getLast?_reverse] at hc
      exact head_dropWhile_not hc
  rw [h1, List.reverse_reverse, dropWhile_dropWhile]

theorem geminiEntryLoop_mem {items : List JItem} {l : List Candidate}
    (hl : geminiEntryLoop items = some l) :
    ∀ c ∈ l, c.name ≠ "" ∧ pyStrip c.name.data = c.name.data ∧
      0 ≤ c.confidence ∧ c.confidence ≤ 1 ∧
      is_likely_artist_name c.name = true ∧ c.method = "gemini" := by
  induction items generalizing l with
  | nil =>
    simp only [geminiEntryLoop, Option.some_inj] at hl
    subst hl
    intro c hc
    simp at hc
  | cons item rest ih =>
    cases item with
    | jnondict =>
      simp only [geminiEntryLoop] at hl
      exact ih hl
    | jdict nameV confV =>
      simp only [geminiEntryLoop] at hl
      split at hl
      case h_2 => exact absurd hl (by simp)
      case h_1 rawName heq =>
        split at hl
        case h_2 => exact ih hl
        case h_1 q heq2 =>
          split at hl
          · exact ih hl
          · rename_i hn
            split at hl
            · rename_i hlk
              rcases Option.map_eq_some'.mp hl with ⟨l', hl', rfl⟩
              intro c hc
              rcases List.mem_cons.mp hc with rfl | hc'
              · refine ⟨hn, ?_, ?_, ?_, hlk, rfl⟩
                · simp only [data_mk]
                  exact pyStrip_idem _
                · exact le_max_left _ _
                · exact max_le (by norm_num) (min_le_left _ _)
              · exact ih hl' c hc'
            · exact ih hl

theorem vertexEntryLoop_mem {items : List JItem} {l : List Candidate}
    (hl : vertexEntryLoop items = some l) :
    ∀ c ∈ l, c.name ≠ "" ∧ pyStrip c.name.data = c.name.data ∧
      0 ≤ c.confidence ∧ c.confidence ≤ 1 ∧ c.method = "vertex_ai" := by
  induction items generalizing l with
  | nil =>
    simp only [vertexEntryLoop, Option.some_inj] at hl
    subst hl
    intro c hc
    simp at hc
  | cons item rest ih =>
    cases item with
    | jnondict =>
      simp only [vertexEntryLoop] at hl
      exact ih hl
    | jdict nameV confV =>
      simp only [vertexEntryLoop] at hl
      split at hl
      case h_2 => exact ih hl
      case h_1 nv cv =>
        split at hl
        case h_2 => exact absurd hl (by simp)
        case h_1 conf heq =>
          split at hl
          · rename_i hcond
            obtain ⟨hn, hc0, hc1⟩ := hcond
            rcases Option.map_eq_some'.mp hl with ⟨l', hl', rfl⟩
            intro c hc
            rcases List.mem_cons.mp hc with rfl | hc'
            · refine ⟨hn, ?_, hc0, hc1, rfl⟩
              simp only [data_mk]
              exact pyStrip_idem _
            · exact ih hl' c hc'
          · exact ih hl

/-- C4: the claim as stated is false for the Vertex AI adapter: on a parsed
array containing the excluded term "festival" (confidence 0.9) and a valid
name with out-of-range confidence 1.5, the Vertex validation returns the
excluded name (no excluded-term or time/price rejection is applied) and
drops, rather than clamps, the out-of-range entry. -/
theorem C4_counterexample :
    extract_with_vertex_ai true (.parsed
      [.jdict (some (.jstr "festival")) (some (.jnum (9/10))),
       .jdict (some (.jstr "Good Band")) (some (.jnum (3/2)))]) =
      [⟨"festival", 9/10, "vertex_ai", ""⟩] ∧
    is_likely_artist_name "festival" = false := by
  decide

/-- C4 (amended): the Gemini text and vision adapters validate every
returned entry (name non-empty and already trimmed; confidence clamped into
[0,1]; excluded-term and time/price names rejected via
`_is_likely_artist_name`); the Vertex AI adapter only validates that the
name is non-empty and the confidence lies in [0,1] (filtering, not
clamping), without the excluded-term or time/price rejection. -/
theorem C4_adapter_validation :
    (∀ (b : Bool) (oc : AIOutcome) (c : Candidate),
        (c ∈ gemini_extract_from_text b oc ∨ c ∈ gemini_extract_from_image b oc) →
        c.name ≠ "" ∧ pyStrip c.name.data = c.name.data ∧
          0 ≤ c.confidence ∧ c.confidence ≤ 1 ∧
          is_likely_artist_name c.name = true) ∧
    (∀ (b : Bool) (oc : AIOutcome) (c : Candidate),
        c ∈ extract_with_vertex_ai b oc →
        c.name ≠ "" ∧ pyStrip c.name.data = c.name.data ∧
          0 ≤ c.confidence ∧ c.confidence ≤ 1) := by
  constructor
  · intro b oc c hmem
    have hparse : c ∈ parse_gemini_response oc := by
      rcases hmem with h | h <;>
        (cases b <;> cases oc <;> simp_all [gemini_extract_from_text,
          gemini_extract_from_image, parse_gemini_response])
    rcases oc with _ | _ | _ | _ | items <;>
      simp only [parse_gemini_response] at hparse
    case parsed =>
      revert hparse
      split
      · rename_i l hl
        intro hparse
        obtain ⟨h1, h2, h3, h4, h5, _⟩ := geminiEntryLoop_mem hl c hparse
        exact ⟨h1, h2, h3, h4, h5⟩
      · intro hparse
        simp at hparse
    all_goals simp at hparse
  · intro b oc c hmem
    cases b
    · simp [extract_with_vertex_ai] at hmem
    · rcases oc with _ | _ | _ | _ | items <;>
        simp only [extract_with_vertex_ai, Bool.not_true, Bool.false_eq_true,
          if_false] at hmem
      case parsed =>
        revert hmem
        split
        · rename_i l hl
          intro hmem
          obtain ⟨h1, h2, h3, h4, _⟩ := vertexEntryLoop_mem hl c hmem
          exact ⟨h1, h2, h3, h4⟩
        · intro hmem
          simp at hmem
      all_goals simp_all

/-- Witness for C4 (amended) at a concrete Vertex input. -/
theorem C4_adapter_validation_witness :
    (Candidate.mk "Muse" (8/10) "vertex_ai" "").name ≠ "" ∧
    pyStrip (Candidate.mk "Muse" (8/10) "vertex_ai" "").name.data =
      (Candidate.mk "Muse" (8/10) "vertex_ai" "").name.data ∧
    0 ≤ (Candidate.mk "Muse" (8/10) "vertex_ai" "").confidence ∧
    (Candidate.mk "Muse" (8/10) "vertex_ai" "").confidence ≤ 1 :=
  C4_adapter_validation.2 true
    (.parsed [.jdict (some (.jstr "Muse")) (some (.jnum (8/10)))])
    (Candidate.mk "Muse" (8/10) "vertex_ai" "") (by decide)

theorem mem_potentialArtists_conf {text : String} {c : Candidate}
    (h : c ∈ potentialArtists text) : 3/10 < c.confidence := by
  simp only [potentialArtists, List.mem_join, List.mem_map] at h
  obtain ⟨lc, ⟨raw, hraw, rfl⟩, hcl⟩ := h
  split at hcl
  · simp at hcl
  · simp only [lineCandidates, List.mem_join, List.mem_map] at hcl
    obtain ⟨lp, ⟨pat, hpat, rfl⟩, hc2⟩ := hcl
    rw [List.mem_filterMap] at hc2
    obtain ⟨mtch, hmtch, hsome⟩ := hc2
    simp only [candidateOfMatch] at hsome
    split at hsome
    · exact absurd hsome (by simp)
    · split at hsome
      · exact absurd hsome (by simp)
      · split at hsome
        · rename_i hconf
          rw [Option.some_inj] at hsome
          rw [← hsome]
          exact hconf
        · exact absurd hsome (by simp)

theorem mem_dedupKeys {seen : List String} {l : List Candidate} {c : Candidate}
    (h : c ∈ dedupKeys seen l) : c ∈ l ∧ strLower c.name ∉ seen := by
  induction l generalizing seen with
  | nil => simp [dedupKeys] at h
  | cons a rest ih =>
    simp only [dedupKeys] at h
    split at h
    · obtain ⟨h1, h2⟩ := ih h
      exact ⟨List.mem_cons_of_mem _ h1, h2⟩
    · rename_i hseen
      rcases List.mem_cons.mp h with rfl | h'
      · refine ⟨List.mem_cons_self _ _, ?_⟩
        intro hmem
        exact hseen (List.elem_eq_true_of_mem hmem)
      · obtain ⟨h1, h2⟩ := ih h'
        refine ⟨List.mem_cons_of_mem _ h1, ?_⟩
        intro hmem
        exact h2 (List.mem_cons_of_mem _ hmem)

theorem dedupKeys_pairwise (seen : List String) (l : List Candidate) :
    (dedupKeys seen l).Pairwise (fun x y => strLower x.name ≠ strLower y.name) := by
  induction l generalizing seen with
  | nil => simp [dedupKeys]
  | cons a rest ih =>
    simp only [dedupKeys]
    split
    · exact ih seen
    · refine List.pairwise_cons.mpr ⟨?_, ih _⟩
      intro y hy heq
      have h2 := (mem_dedupKeys hy).2
      apply h2
      rw [← heq]
      exact List.mem_cons_self _ _

theorem dedupKeys_max (l : List Candidate) (seen : List String) (c d : Candidate)
    (hsort : l.Pairwise (fun x y => y.confidence ≤ x.confidence))
    (hc : c ∈ dedupKeys seen l) (hd : d ∈ l)
    (hdc : strLower d.name = strLower c.name) : d.confidence ≤ c.confidence := by
  induction l generalizing seen with
  | nil => simp [dedupKeys] at hc
  | cons a rest ih =>
    rw [List.pairwise_cons] at hsort
    obtain ⟨hall, hrest⟩ := hsort
    simp only [dedupKeys] at hc
    split at hc
    · rename_i hseen
      rcases List.mem_cons.mp hd with rfl | hd'
      · exfalso
        apply (mem_dedupKeys hc).2
        rw [← hdc]
        exact List.mem_of_elem_eq_true hseen
      · exact ih _ hrest hc hd'
    · rcases List.mem_cons.mp hc with rfl | hc'
      · rcases List.mem_cons.mp hd with rfl | hd'
        · exact le_refl _
        · exact hall d hd'
      · rcases List.mem_cons.mp hd with rfl | hd'
        · exfalso
          apply (mem_dedupKeys hc').2
          rw [← hdc]
          exact List.mem_cons_self _ _
        · exact ih _ hrest hc' hd'

theorem insertDesc_pairwise {a : Candidate} {l : List Candidate}
    (h : l.Pairwise (fun x y => y.confidence ≤ x.confidence)) :
    (insertDesc a l).Pairwise (fun x y => y.confidence ≤ x.confidence) := by
  induction l with
  | nil => simp [insertDesc]
  | cons b rest ih =>
    rw [List.pairwise_cons] at h
    obtain ⟨hb, hrest⟩ := h
    by_cases hc : b.confidence > a.confidence
    · simp only [insertDesc, hc, if_true]
      refine List.pairwise_cons.mpr ⟨?_, ih hrest⟩
      intro y hy
      rcases mem_insertDesc.mp hy with rfl | hy'
      · exact le_of_lt hc
      · exact hb y hy'
    · simp only [insertDesc, hc, if_false]
      refine List.pairwise_cons.mpr ⟨?_, List.pairwise_cons.mpr ⟨hb, hrest⟩⟩
      intro y hy
      rcases List.mem_cons.mp hy with rfl | hy'
      · exact not_lt.mp hc
      · exact le_trans (hb y hy') (not_lt.mp hc)

theorem sortDesc_pairwise (l : List Candidate) :
    (sortDesc l).Pairwise (fun x y => y.confidence ≤ x.confidence) := by
  induction l with
  | nil => simp [sortDesc]
  | cons a rest ih =>
    simp only [sortDesc]
    exact insertDesc_pairwise ih

/-- C9: pattern extractor output bounds: at most 20 candidates; every
candidate scores strictly above 0.3; no two candidates share a
case-insensitive name; and the survivor of each name scores at least every
pre-deduplication candidate with that name. -/
theorem C9_pattern_extractor_bounds (text : String) :
    (extract_with_patterns text).length ≤ 20 ∧
    (∀ c ∈ extract_with_patterns text, 3/10 < c.confidence) ∧
    (extract_with_patterns text).Pairwise
      (fun x y => strLower x.name ≠ strLower y.name) ∧
    (∀ c ∈ extract_with_patterns text, ∀ d ∈ potentialArtists text,
        strLower d.name = strLower c.name → d.confidence ≤ c.confidence) := by
  refine ⟨?_, ?_, ?_, ?_⟩
  · simp only [extract_with_patterns]
    exact List.length_take_le _ _
  · intro c hc
    simp only [extract_with_patterns] at hc
    have h1 := List.mem_of_mem_take hc
    have h2 := (mem_dedupKeys h1).1
    exact mem_potentialArtists_conf ((sortDesc_perm _).mem_iff.mp h2)
  · simp only [extract_with_patterns]
    exact List.Pairwise.sublist (List.take_sublist _ _) (dedupKeys_pairwise [] _)
  · intro c hc d hd hdc
    simp only [extract_with_patterns] at hc
    have h1 := List.mem_of_mem_take hc
    have hd2 : d ∈ sortDesc (potentialArtists text) := (sortDesc_perm _).mem_iff.mpr hd
    exact dedupKeys_max _ [] c d (sortDesc_pairwise _) h1 hd2 hdc

/-- Witness for C9 at the spec's §8 pattern-extraction example. -/
theorem C9_pattern_extractor_bounds_witness :
    (3/10 : ℚ) < (Candidate.mk "Daft Punk" 1 "pattern_matching" "Daft Punk").confidence ∧
    (Candidate.mk "Daft Punk" 1 "pattern_matching" "Daft Punk").confidence ≤
      (Candidate.mk "Daft Punk" 1 "pattern_matching" "Daft Punk").confidence :=
  ⟨(C9_pattern_extractor_bounds "Daft Punk").2.1
      (Candidate.mk "Daft Punk" 1 "pattern_matching" "Daft Punk") (by decide),
   (C9_pattern_extractor_bounds "Daft Punk").2.2.2
      (Candidate.mk "Daft Punk" 1 "pattern_matching" "Daft Punk") (by decide)
      (Candidate.mk "Daft Punk" 1 "pattern_matching" "Daft Punk") (by decide) rfl⟩
